import Mathlib

/-!
Verification of the OnCue interview-assistant pipeline.

This file gives a shallow embedding of the question-detection and
memory-retrieval pipeline of the repository and proves the spec's
testable properties about it.  Embedded components:

* `detectWithKeywords` — keyword-mode question detector
  (`interview_app/services`, function `detectWithKeywords`);
* `detectWithLLM` — LLM-mode detector with its bounded FIFO cache
  (the network classifier is an oracle parameter; the returned `Nat`
  counts classifier requests issued by the call);
* `onTranscriptionUpdate` — the synchronous part of the transcript
  aggregator of `App.tsx`, plus the asynchronous continuation
  (`applyAnnot` / `completeTask`) and a round-structured trace
  semantics for the display/annotate ordering;
* `filterByThreshold` — the score filter applied to search results;
* `saveMemoryHandler` — the `/api/save-memory` validation and
  ingestion flow of the backend (embedding service as an oracle);
* the three effective result limits of the search interfaces.

JavaScript strings are modelled as Lean `String`/`List Char`;
`toLowerCase` is modelled on the ASCII range (all trigger phrases and
punctuation in the code are ASCII); similarity scores (floats in
`[0,1]`) are modelled as rationals, which is exact for the order
comparisons the code performs.
-/

namespace OnCue

/-! ## Character-level string operations (models of JS string methods) -/

/-- ASCII lower-casing table: model of `String.prototype.toLowerCase`
restricted to the ASCII range used by the detector. -/
def lowerPairs : List (Char × Char) :=
  [('A','a'), ('B','b'), ('C','c'), ('D','d'), ('E','e'), ('F','f'), ('G','g'),
   ('H','h'), ('I','i'), ('J','j'), ('K','k'), ('L','l'), ('M','m'), ('N','n'),
   ('O','o'), ('P','p'), ('Q','q'), ('R','r'), ('S','s'), ('T','t'), ('U','u'),
   ('V','v'), ('W','w'), ('X','x'), ('Y','y'), ('Z','z')]

/-- Lower-case one character (ASCII model of JS `toLowerCase`). -/
def toLowerChar (c : Char) : Char :=
  ((lowerPairs.find? (fun p => p.1 == c)).map (fun p => p.2)).getD c

/-- Model of JS `trim`: drop whitespace from the front. -/
def trimLeft (l : List Char) : List Char :=
  l.dropWhile fun c => c.isWhitespace

/-- Model of JS `String.prototype.trim`: drop whitespace from both ends. -/
def trimList (l : List Char) : List Char :=
  ((trimLeft l).reverse.dropWhile fun c => c.isWhitespace).reverse

/-! ## Keyword-mode question detector -/

/-- The fixed interview-keyword list of `detectWithKeywords`. -/
def interviewKeywords : List String :=
  ["experience", "skill", "skills", "background", "qualification",
   "qualifications", "tell me about", "describe", "explain",
   "walk me through", "how would you", "what would you", "why did you",
   "when did you", "where did you", "have you ever", "can you",
   "could you", "would you", "do you have", "what is your", "strengths",
   "weaknesses", "challenge", "project", "team", "leadership", "conflict",
   "situation", "example", "greatest achievement", "why should we"]

/-- `detectWithKeywords` from the source: lower-case and trim the text;
return true if it contains `?`, or contains any interview keyword as a
substring; false otherwise. -/
def detectWithKeywords (text : String) : Bool :=
  let lowerText := trimList (text.toList.map toLowerChar)
  if decide ('?' ∈ lowerText) then true
  else if interviewKeywords.any (fun kw => decide (kw.toList <:+: lowerText)) then true
  else false

/-! ## LLM-mode question detector with bounded FIFO cache -/

/-- The `llmCache` JS `Map`, modelled as an association list in
insertion order (JS `Map` iterates in insertion order). -/
abbrev Cache := List (String × Bool)

/-- `Map.has`/`Map.get` combined: look up a text in the cache. -/
def cacheLookup (c : Cache) (t : String) : Option Bool :=
  (c.find? (fun e => e.1 == t)).map (fun e => e.2)

/-- `Map.set`: update in place if the key exists (keeping its
insertion-order position), otherwise append at the end. -/
def cacheSet (c : Cache) (t : String) (b : Bool) : Cache :=
  if c.any (fun e => e.1 == t) then
    c.map (fun e => if e.1 == t then (t, b) else e)
  else
    c ++ [(t, b)]

/-- `llmCache.delete(llmCache.keys().next().value)`: remove the entry
whose key is the first key in insertion order. -/
def cacheDeleteFirstKey (c : Cache) : Cache :=
  match c.head? with
  | none => c
  | some e => c.eraseP (fun x => x.1 == e.1)

/-- `detectWithLLM` from the source.  The generative-language call is
the oracle `net` (`none` models a thrown error, `some b` a response
whose lower-cased text contains "yes" iff `b`).  Returns the boolean
result, the cache after the call, and the number of classifier
requests issued (0 or 1). -/
def detectWithLLM (net : String → Option Bool) (c : Cache) (t : String) :
    Bool × Cache × Nat :=
  match cacheLookup c t with
  | some b => (b, c, 0)
  | none =>
    match net t with
    | some isQ =>
      let c1 := cacheSet c t isQ
      let c2 := if 100 < c1.length then cacheDeleteFirstKey c1 else c1
      (isQ, c2, 1)
    | none => (detectWithKeywords t, c, 1)

/-- Fold a sequence of texts through `detectWithLLM` (all classifier
calls succeed, with answers given by `ans`), starting from the empty
cache; returns the final cache. -/
def runCache (ans : String → Bool) (ts : List String) : Cache :=
  ts.foldl (fun c t => (detectWithLLM (fun s => some (ans s)) c t).2.1) []

/-- The keys of the cache, in insertion order. -/
def cacheKeys (c : Cache) : List String := c.map (fun e => e.1)

/-! ## Search results and the aggregator's score filter -/

/-- A memory search result (scores are floats in `[0,1]` in the source,
modelled as rationals). -/
structure MemorySearchResult where
  classification : String
  description : String
  sourceFile : String
  createdAt : String
  score : ℚ
deriving DecidableEq

/-- The aggregator's result filter:
`allResults.filter(result => result.score >= currentMinThreshold)`. -/
def filterByThreshold (minThreshold : ℚ) (results : List MemorySearchResult) :
    List MemorySearchResult :=
  results.filter (fun r => decide (minThreshold ≤ r.score))

/-! ## Transcript aggregator (`App.tsx`, `onTranscriptionUpdate`) -/

/-- A displayed transcript fragment (`Phrase` in `App.tsx`). -/
structure Phrase where
  id : Nat
  text : String
  isFinal : Bool
  isQuestion : Bool
  questionGroupId : Option Nat
  searchResults : Option (List MemorySearchResult)
deriving DecidableEq

/-- The mutable state of the aggregator: the displayed phrase list and
the refs `phraseIdCounter`, `currentQuestionGroup`,
`questionGroupCounter`, `accumulatedText`. -/
structure AggState where
  phrases : List Phrase
  phraseIdCounter : Nat
  currentQuestionGroup : Option Nat
  questionGroupCounter : Nat
  accumulatedText : String
deriving DecidableEq

/-- The Idle state: no open group, empty accumulation buffer, nothing
displayed. -/
def initialAggState : AggState :=
  { phrases := [], phraseIdCounter := 0, currentQuestionGroup := none,
    questionGroupCounter := 0, accumulatedText := "" }

/-- `/[.?!]/.test(text)`: the chunk contains sentence-ending
punctuation. -/
def hasPunctuation (s : String) : Bool :=
  s.toList.any fun c => c == '.' || c == '?' || c == '!'

/-- A scheduled asynchronous classification task: the group it will
annotate, the accumulated text passed to `isTextAQuestionAsync`, and
(instrumentation for the temporal model) the index of the input that
scheduled it. -/
structure PendingTask where
  groupId : Nat
  fullText : String
  schedIdx : Nat
deriving DecidableEq

/-- The synchronous body of `onTranscriptionUpdate`: open a group if
none is open, accumulate the chunk, append the displayed phrase, and on
punctuation schedule exactly one classification task over the
accumulated text, then reset the buffer and close the group. -/
def onTranscriptionUpdate (st : AggState) (text : String) (isFinal : Bool)
    (idx : Nat) : AggState × Option PendingTask :=
  let gidCnt : Nat × Nat :=
    match st.currentQuestionGroup with
    | some g => (g, st.questionGroupCounter)
    | none => (st.questionGroupCounter, st.questionGroupCounter + 1)
  let gid := gidCnt.1
  let acc := st.accumulatedText ++ text
  let newPhrases := st.phrases ++
    [{ id := st.phraseIdCounter, text := text, isFinal := isFinal,
       isQuestion := false, questionGroupId := some gid, searchResults := none }]
  if hasPunctuation text then
    ({ phrases := newPhrases, phraseIdCounter := st.phraseIdCounter + 1,
       currentQuestionGroup := none, questionGroupCounter := gidCnt.2,
       accumulatedText := "" },
     some { groupId := gid, fullText := acc, schedIdx := idx })
  else
    ({ phrases := newPhrases, phraseIdCounter := st.phraseIdCounter + 1,
       currentQuestionGroup := some gid, questionGroupCounter := gidCnt.2,
       accumulatedText := acc },
     none)

/-- Deliver a list of transcription chunks in order, collecting the
scheduled classification tasks. -/
def runSyncAux : AggState → List PendingTask → Nat → List (String × Bool) →
    AggState × List PendingTask
  | st, tasks, _, [] => (st, tasks)
  | st, tasks, idx, (t, f) :: rest =>
    let step := onTranscriptionUpdate st t f idx
    runSyncAux step.1 (tasks ++ step.2.toList) (idx + 1) rest

/-- Deliver a list of transcription chunks starting from the Idle
state. -/
def runSync (inputs : List (String × Bool)) : AggState × List PendingTask :=
  runSyncAux initialAggState [] 0 inputs

/-- The asynchronous annotation update applied when a group is
classified as a question: mark every phrase of the group and attach the
(already filtered) search results; leave all other phrases unchanged. -/
def applyAnnot (g : Nat) (results : List MemorySearchResult)
    (phrases : List Phrase) : List Phrase :=
  phrases.map fun p =>
    if p.questionGroupId = some g then
      { p with isQuestion := true, searchResults := some results }
    else p

/-- Completion of a pending classification task: if the classifier said
"question", apply the annotation update; otherwise leave the state
alone.  (In the source the search results have already been filtered by
threshold; a failed search yields the empty list and the update still
runs.) -/
def completeTask (g : Nat) (isQ : Bool) (results : List MemorySearchResult)
    (st : AggState) : AggState :=
  if isQ then { st with phrases := applyAnnot g results st.phrases } else st

/-! ## Trace semantics for the display/annotate ordering -/

/-- Observable events: a fragment being appended to the display list,
and a group's annotation update being applied. -/
inductive TraceEvent where
  | display (phraseId : Nat) (groupId : Option Nat)
  | annotate (groupId : Nat)
deriving DecidableEq

/-- The round-structured event trace of a run: round `j` starts with
the display emission of fragment `j` (displays happen synchronously, in
arrival order), followed by the annotation updates of all tasks whose
completion round `d` assigns to `j`.  A schedule `d` is valid when each
task completes no earlier than the round that scheduled it; flattening
the rounds gives the temporal order of events. -/
def traceRounds (inputs : List (String × Bool)) (d : Nat → Nat) :
    List (List TraceEvent) :=
  let r := runSync inputs
  r.1.phrases.enum.map fun jp =>
    TraceEvent.display jp.2.id jp.2.questionGroupId ::
      ((r.2.filter fun t => d t.schedIdx == jp.1).map
        fun t => TraceEvent.annotate t.groupId)

/-- Invariant of a sync run after `k` inputs: `k` phrases with ids
`0, …, k-1`, every phrase carrying a group id below the group counter;
every pending task was scheduled at an earlier input, annotates a group
below the counter, and all phrases of its group sit at indices up to
its scheduling index (the group was closed by the input that scheduled
it); the open group, if any, is below the counter and has no pending
task. -/
def AggInv (st : AggState) (tasks : List PendingTask) (k : Nat) : Prop :=
  st.phrases.length = k ∧
  st.phraseIdCounter = k ∧
  (∀ (i : Nat) (p : Phrase), st.phrases[i]? = some p →
    p.id = i ∧ ∃ g, p.questionGroupId = some g ∧ g < st.questionGroupCounter) ∧
  (∀ t ∈ tasks, t.groupId < st.questionGroupCounter ∧ t.schedIdx < k ∧
    ∀ (i : Nat) (p : Phrase), st.phrases[i]? = some p →
      p.questionGroupId = some t.groupId → i ≤ t.schedIdx) ∧
  (∀ g, st.currentQuestionGroup = some g →
    g < st.questionGroupCounter ∧ ∀ t ∈ tasks, t.groupId ≠ g)

/-! ## Memory ingestion endpoint (`/api/save-memory`) -/

/-- The `memory` object of a save-memory request body; `none` fields
are absent. -/
structure MemoryFields where
  classification : Option String
  description : Option String
deriving DecidableEq

/-- A save-memory request body. -/
structure SaveRequest where
  memory : Option MemoryFields
  sourceFile : Option String
deriving DecidableEq

/-- JS falsiness of a possibly-absent string field (`!x` is true when
the field is absent or the empty string). -/
def strFalsy : Option String → Bool
  | none => true
  | some s => s == ""

/-- Outcome of the save-memory handler: HTTP status, `success` flag,
the texts sent to the embedding service, and the documents inserted
into the datastore. -/
structure SaveResult where
  status : Nat
  success : Bool
  embedRequests : List String
  insertedDocs : List (String × String × String)
deriving DecidableEq

/-- The `/api/save-memory` handler: validate the body, embed
`classification ++ ": " ++ description`, insert the document.  The
embedding service is the oracle `embed` (`none` models a thrown
error). -/
def saveMemoryHandler (embed : String → Option (List ℚ)) (req : SaveRequest) :
    SaveResult :=
  match req.memory with
  | none => { status := 400, success := false, embedRequests := [], insertedDocs := [] }
  | some m =>
    if strFalsy m.classification || strFalsy m.description || strFalsy req.sourceFile then
      { status := 400, success := false, embedRequests := [], insertedDocs := [] }
    else
      let cls := m.classification.getD ""
      let desc := m.description.getD ""
      let sf := req.sourceFile.getD ""
      let textToEmbed := cls ++ ": " ++ desc
      match embed textToEmbed with
      | none =>
        { status := 500, success := false, embedRequests := [textToEmbed], insertedDocs := [] }
      | some _ =>
        { status := 200, success := true, embedRequests := [textToEmbed],
          insertedDocs := [(cls, desc, sf)] }

/-- A required field of the save-memory request is absent (the claim's
hypothesis; absence implies JS falsiness of the field). -/
def requiredFieldAbsent (req : SaveRequest) : Bool :=
  match req.memory with
  | none => true
  | some m => m.classification.isNone || m.description.isNone || req.sourceFile.isNone

/-! ## Effective result limits of the three search interfaces -/

/-- Effective limit of the frontend client `searchMemories`: the
`limit` parameter defaults to 3 when the caller omits it. -/
def searchMemoriesClientLimit (limitArg : Option Nat) : Nat :=
  limitArg.getD 3

/-- Effective limit of `POST /api/search-memory`: a missing body
`limit` defaults to 5 via the destructuring default on `req.body`. -/
def searchMemoryEndpointLimit (bodyLimit : Option Nat) : Nat :=
  bodyLimit.getD 5

/-- The tool-protocol `search_memories` tool always requests exactly 5
results (`limit: 5` in its aggregation stage). -/
def mcpSearchMemoriesLimit : Nat := 5

/-- The input-schema properties of the `search_memories` tool: only
`query`; there is no limit parameter. -/
def mcpSearchMemoriesInputProperties : List String := ["query"]

/-! ## Concrete inputs used by the spec's testable properties -/

/-- The three transcription fragments of the grouping property. -/
def c1Inputs : List (String × Bool) :=
  [("Tell ", false), ("me about ", false), ("your experience.", true)]

/-- The grouping inputs followed by a fragment that opens a new group
(used to exhibit a late annotation landing after newer fragments). -/
def c8DemoInputs : List (String × Bool) := c1Inputs ++ [("Next", false)]

/-- A completion schedule that lets the one pending task of
`c8DemoInputs` complete in round 3, after the fourth fragment is
displayed. -/
def c8DemoSched : Nat → Nat := fun _ => 3

/-- Search results with scores 0.9, 0.6, 0.3. -/
def c6Results : List MemorySearchResult :=
  [{ classification := "a", description := "", sourceFile := "", createdAt := "", score := 9/10 },
   { classification := "b", description := "", sourceFile := "", createdAt := "", score := 6/10 },
   { classification := "c", description := "", sourceFile := "", createdAt := "", score := 3/10 }]

/-- The results of `c6Results` whose score meets the 0.5 threshold. -/
def c6Kept : List MemorySearchResult :=
  [{ classification := "a", description := "", sourceFile := "", createdAt := "", score := 9/10 },
   { classification := "b", description := "", sourceFile := "", createdAt := "", score := 6/10 }]

/-- A save-memory request whose `description` field is absent. -/
def c7MissingDescription : SaveRequest :=
  { memory := some { classification := some "skill", description := none },
    sourceFile := some "notes.md" }

/-- 101 pairwise-distinct texts, enough to overflow the LLM cache. -/
def cacheStressTexts : List String := (List.range 101).map (fun n => Nat.repr n)

/-! ## Helper lemmas -/

/-- An absent string field is falsy. -/
theorem strFalsy_of_isNone {o : Option String} (h : o.isNone = true) :
    strFalsy o = true := by
  cases o with
  | none => rfl
  | some s => simp at h

/-- Lower-casing maps only uppercase letters to something else, so it
can only produce a question mark from a question mark. -/
theorem toLowerChar_eq_qmark {c : Char} (h : toLowerChar c = '?') : c = '?' := by
  unfold toLowerChar at h
  cases hf : lowerPairs.find? (fun p => p.1 == c) with
  | none => simpa [hf] using h
  | some pr =>
    have hmem : pr ∈ lowerPairs := List.mem_of_find?_eq_some hf
    have hne : ∀ p ∈ lowerPairs, p.2 ≠ '?' := by decide
    rw [hf] at h
    simp only [Option.map_some', Option.getD_some] at h
    exact absurd h (hne pr hmem)

/-- A question mark survives lower-casing in either direction. -/
theorem qmark_mem_map_toLower (l : List Char) :
    '?' ∈ l.map toLowerChar ↔ '?' ∈ l := by
  rw [List.mem_map]
  constructor
  · rintro ⟨a, ha, heq⟩
    rw [← toLowerChar_eq_qmark heq]
    exact ha
  · intro h
    exact ⟨'?', h, by decide⟩

/-- If an infix starts with a non-whitespace character (or is empty),
it survives dropping leading whitespace. -/
theorem infix_dropWhile_of_head (k m : List Char)
    (hk : ∀ c, k.head? = some c → c.isWhitespace = false)
    (h : k <:+: m) : k <:+: m.dropWhile (fun c => c.isWhitespace) := by
  obtain ⟨s, t, rfl⟩ := h
  induction s with
  | nil =>
    cases k with
    | nil => exact List.nil_infix
    | cons c k' =>
      have hc : c.isWhitespace = false := hk c rfl
      rw [List.nil_append, List.cons_append, List.dropWhile_cons]
      simp only [hc, if_false]
      exact ⟨[], t, by simp⟩
  | cons x s ih =>
    simp only [List.cons_append]
    rw [List.dropWhile_cons]
    by_cases hx : x.isWhitespace = true
    · simp only [hx, if_true]
      exact ih
    · simp only [hx, if_false]
      exact ⟨x :: s, t, by simp⟩

/-- The trimmed list is an infix of the original. -/
theorem trimList_isInfix (m : List Char) : trimList m <:+: m := by
  have h1 : trimLeft m <:+ m := List.dropWhile_suffix _
  have h2 : (trimLeft m).reverse.dropWhile (fun c => c.isWhitespace) <:+
      (trimLeft m).reverse := List.dropWhile_suffix _
  have h3 : trimList m <+: trimLeft m := by
    rw [trimList]
    have h4 := List.reverse_prefix.mpr h2
    rwa [List.reverse_reverse] at h4
  obtain ⟨t2, ht⟩ := h3
  obtain ⟨s1, hs⟩ := h1
  exact ⟨s1, t2, by rw [List.append_assoc, ht, hs]⟩

/-- An infix whose first and last characters are not whitespace (or
which is empty) is an infix of the trimmed list iff it is an infix of
the original. -/
theorem infix_trimList_iff (k m : List Char)
    (hhead : ∀ c, k.head? = some c → c.isWhitespace = false)
    (hlast : ∀ c, k.reverse.head? = some c → c.isWhitespace = false) :
    k <:+: trimList m ↔ k <:+: m := by
  constructor
  · intro h
    exact h.trans (trimList_isInfix m)
  · intro h
    have h1 : k <:+: trimLeft m := infix_dropWhile_of_head k m hhead h
    have h2 : k.reverse <:+: (trimLeft m).reverse := List.reverse_infix.mpr h1
    have h3 := infix_dropWhile_of_head k.reverse (trimLeft m).reverse hlast h2
    rw [trimList]
    have h4 : k.reverse <:+:
        (((trimLeft m).reverse.dropWhile (fun c => c.isWhitespace)).reverse).reverse := by
      rw [List.reverse_reverse]
      exact h3
    exact List.reverse_infix.mp h4

/-- A non-whitespace character is in the trimmed list iff it is in the
original. -/
theorem mem_trimList_iff (c : Char) (m : List Char)
    (hc : c.isWhitespace = false) : c ∈ trimList m ↔ c ∈ m := by
  have hcond : ∀ x, ([c].head? = some x) → x.isWhitespace = false := by
    intro x hx
    simp only [List.head?_cons, Option.some.injEq] at hx
    rw [← hx]
    exact hc
  constructor
  · intro h
    exact List.IsInfix.subset (trimList_isInfix m) h
  · intro h
    obtain ⟨s, t, rfl⟩ := List.append_of_mem h
    have hinf : [c] <:+: s ++ c :: t := ⟨s, t, by simp⟩
    have h2 := (infix_trimList_iff [c] _ hcond (by simpa using hcond)).mpr hinf
    exact List.IsInfix.subset h2 (List.mem_singleton_self c)

/-- Convert the boolean edge condition checked over the keyword list
into its propositional form. -/
theorem headCond_of_all {l : List Char}
    (h : (l.head?.all fun c => !c.isWhitespace) = true) :
    ∀ c, l.head? = some c → c.isWhitespace = false := by
  intro c hc
  rw [hc] at h
  simpa using h

/-- A cache lookup misses exactly when the text is not among the keys. -/
theorem cacheLookup_eq_none_iff (c : Cache) (t : String) :
    cacheLookup c t = none ↔ t ∉ cacheKeys c := by
  rw [cacheLookup, Option.map_eq_none', List.find?_eq_none]
  constructor
  · intro h hm
    rw [cacheKeys, List.mem_map] at hm
    obtain ⟨e, he, heq⟩ := hm
    exact h e he (by simp [heq])
  · intro h e he heq
    refine h ?_
    rw [cacheKeys, List.mem_map]
    exact ⟨e, he, by simpa using heq⟩

/-- Setting a key that is not present appends the entry at the end. -/
theorem cacheSet_of_not_mem (c : Cache) (t : String) (b : Bool)
    (h : t ∉ cacheKeys c) : cacheSet c t b = c ++ [(t, b)] := by
  have hany : c.any (fun e => e.1 == t) = false := by
    rw [List.any_eq_false]
    intro e he heq
    refine h ?_
    rw [cacheKeys, List.mem_map]
    exact ⟨e, he, by simpa using heq⟩
  simp [cacheSet, hany]

/-- Looking up a key absent from the first part of an appended cache
skips that part. -/
theorem cacheLookup_append_right (u v : Cache) (t : String)
    (h : t ∉ cacheKeys u) : cacheLookup (u ++ v) t = cacheLookup v t := by
  induction u with
  | nil => simp
  | cons e u ih =>
    simp only [cacheKeys, List.map_cons, List.mem_cons, not_or] at h
    have he : (e.1 == t) = false := by
      simp only [beq_eq_false_iff_ne, ne_eq]
      exact fun hh => h.1 hh.symm
    simp only [List.cons_append, cacheLookup, List.find?_cons, he]
    exact ih (by simpa [cacheKeys] using h.2)

/-- Looking up the key of a freshly appended entry finds it, provided
the key was absent before. -/
theorem cacheLookup_append_self (u : Cache) (t : String) (b : Bool)
    (h : t ∉ cacheKeys u) : cacheLookup (u ++ [(t, b)]) t = some b := by
  rw [cacheLookup_append_right u [(t, b)] t h]
  simp [cacheLookup]

/-- Deleting the first insertion-order key drops the head entry. -/
theorem cacheDeleteFirstKey_cons (e : String × Bool) (rest : Cache) :
    cacheDeleteFirstKey (e :: rest) = rest := by
  show (e :: rest).eraseP (fun x => x.1 == e.1) = rest
  exact List.eraseP_cons_of_pos (by simp)

/-- A cache miss with a successful classification: the result is the
classifier's answer, the entry is appended, and the over-bound cache is
trimmed at the head. -/
theorem detectWithLLM_miss (net : String → Option Bool) (c : Cache)
    (t : String) (b : Bool) (hmiss : cacheLookup c t = none)
    (hnet : net t = some b) :
    detectWithLLM net c t =
      (b, if 100 < (c ++ [(t, b)]).length then cacheDeleteFirstKey (c ++ [(t, b)])
          else c ++ [(t, b)], 1) := by
  have hset := cacheSet_of_not_mem c t b ((cacheLookup_eq_none_iff c t).mp hmiss)
  simp [detectWithLLM, hmiss, hnet, hset]

/-- Any single `detectWithLLM` call issues at most one classifier
request. -/
theorem detectWithLLM_calls_le_one (net : String → Option Bool) (c : Cache)
    (t : String) : (detectWithLLM net c t).2.2 ≤ 1 := by
  unfold detectWithLLM
  cases h : cacheLookup c t with
  | some b => simp
  | none => cases hn : net t <;> simp

/-- The keys of a suffix of the insertion sequence are that suffix. -/
theorem cacheKeys_drop_pair (ans : String → Bool) (ts : List String) (k : Nat) :
    cacheKeys ((ts.map fun t => (t, ans t)).drop k) = ts.drop k := by
  show ((ts.map fun t => (t, ans t)).drop k).map Prod.fst = ts.drop k
  rw [List.map_drop, List.map_map]
  simp [Function.comp_def]

/-- Folding pairwise-distinct texts through the LLM detector from the
empty cache leaves exactly the last (up to) 100 entries, in insertion
order with the classifier's answers. -/
theorem runCache_eq (ans : String → Bool) (ts : List String) (h : ts.Nodup) :
    runCache ans ts = (ts.map fun t => (t, ans t)).drop (ts.length - 100) := by
  induction ts using List.reverseRecOn with
  | nil => rfl
  | append_singleton l a ih =>
    rw [List.nodup_append] at h
    obtain ⟨hl, -, hdisj⟩ := h
    have ha : a ∉ l := fun hm => hdisj hm (by simp)
    have hc : runCache ans l = (l.map fun t => (t, ans t)).drop (l.length - 100) :=
      ih hl
    have hstep : runCache ans (l ++ [a]) =
        (detectWithLLM (fun s => some (ans s)) (runCache ans l) a).2.1 := by
      unfold runCache
      rw [List.foldl_append]
      rfl
    have hkeys : cacheKeys (runCache ans l) = l.drop (l.length - 100) := by
      rw [hc]; exact cacheKeys_drop_pair ans l _
    have hmiss : cacheLookup (runCache ans l) a = none := by
      rw [cacheLookup_eq_none_iff, hkeys]
      exact fun hmem => ha (List.mem_of_mem_drop hmem)
    rw [hstep, detectWithLLM_miss _ _ _ (ans a) hmiss rfl]
    rcases le_or_lt l.length 99 with hn | hn
    · have h0 : l.length - 100 = 0 := by omega
      have h1 : (l.length + 1) - 100 = 0 := by omega
      have hlen : ¬ 100 < (runCache ans l ++ [(a, ans a)]).length := by
        rw [hc]
        simp only [List.length_append, List.length_drop, List.length_map,
          List.length_cons, List.length_nil]
        omega
      simp only [hlen, if_false]
      rw [hc, h0, List.drop_zero, List.map_append, List.length_append]
      simp [h1]
    · have hclen : (runCache ans l).length = 100 := by
        rw [hc]
        simp only [List.length_drop, List.length_map]
        omega
      have hlen : 100 < (runCache ans l ++ [(a, ans a)]).length := by
        simp [hclen]
      simp only [hlen, if_true]
      cases hcc : runCache ans l with
      | nil => rw [hcc] at hclen; simp at hclen
      | cons e rest =>
        have htail : rest = ((l.map fun t => (t, ans t)).drop (l.length - 100)).tail := by
          rw [← hc, hcc]; rfl
        rw [List.cons_append, cacheDeleteFirstKey_cons, htail, List.tail_drop]
        have harith : l.length - 100 + 1 = (l.length + 1) - 100 := by omega
        rw [harith]
        have hle : (l.length + 1) - 100 ≤ (l.map fun t => (t, ans t)).length := by
          simp only [List.length_map]; omega
        rw [← List.drop_append_of_le_length hle, List.map_append, List.length_append]
        simp

/-- After a successful (or cached) classification, the text is in the
cache with the value just returned. -/
theorem cacheLookup_after_insert (net : String → Option Bool) (c : Cache)
    (t : String) (b : Bool) (hnet : net t = some b) :
    cacheLookup (detectWithLLM net c t).2.1 t = some (detectWithLLM net c t).1 := by
  cases hl : cacheLookup c t with
  | some b0 => simp [detectWithLLM, hl]
  | none =>
    have hnot : t ∉ cacheKeys c := (cacheLookup_eq_none_iff c t).mp hl
    rw [detectWithLLM_miss net c t b hl hnet]
    by_cases hlen : 100 < (c ++ [(t, b)]).length
    · simp only [hlen, if_true]
      cases hcc : c with
      | nil => rw [hcc] at hlen; simp at hlen
      | cons e rest =>
        rw [List.cons_append, cacheDeleteFirstKey_cons]
        refine cacheLookup_append_self rest t b ?_
        intro hmem
        exact hnot (by rw [hcc]; exact List.mem_cons_of_mem _ hmem)
    · simp only [hlen, if_false]
      exact cacheLookup_append_self c t b hnot

/-- Indexing into a list extended by one element: either the index hits
the old part, or it is exactly the old length and yields the new
element. -/
theorem getElem?_append_singleton {α : Type} (ps : List α) (q : α) (i : Nat)
    (p : α) (h : (ps ++ [q])[i]? = some p) :
    ps[i]? = some p ∨ (i = ps.length ∧ p = q) := by
  rcases lt_or_ge i ps.length with hi | hi
  · left
    rwa [List.getElem?_append_left hi] at h
  · right
    rw [List.getElem?_append_right hi] at h
    rcases Nat.lt_or_ge i (ps.length + 1) with h2 | h2
    · have h0 : i - ps.length = 0 := by omega
      rw [h0] at h
      simp only [List.getElem?_cons_zero, Option.some.injEq] at h
      exact ⟨by omega, h.symm⟩
    · have hnone : ([q] : List α)[i - ps.length]? = none := by
        rw [List.getElem?_eq_none_iff]
        simp only [List.length_cons, List.length_nil]
        omega
      rw [hnone] at h
      exact absurd h (by simp)

/-- Appending a phrase with a fresh id and a group id below the (weakly
increased) counter preserves the per-phrase invariant. -/
theorem phraseInv_append (ps : List Phrase) (k : Nat) (hlen : ps.length = k)
    (cnt cnt'' : Nat) (hle : cnt ≤ cnt'')
    (hph : ∀ (i : Nat) (p : Phrase), ps[i]? = some p →
      p.id = i ∧ ∃ g, p.questionGroupId = some g ∧ g < cnt)
    (newP : Phrase) (hid : newP.id = k) (gid : Nat)
    (hgid : newP.questionGroupId = some gid) (hglt : gid < cnt'') :
    ∀ (i : Nat) (p : Phrase), (ps ++ [newP])[i]? = some p →
      p.id = i ∧ ∃ g, p.questionGroupId = some g ∧ g < cnt'' := by
  intro i p h
  rcases getElem?_append_singleton ps newP i p h with h1 | ⟨hi, hpq⟩
  · obtain ⟨hidp, g, hg, hlt⟩ := hph i p h1
    exact ⟨hidp, g, hg, lt_of_lt_of_le hlt hle⟩
  · rw [hpq, hi, ← hlen] at *
    exact ⟨by rw [hid, hlen], gid, hgid, hglt⟩

/-- Appending a phrase of a different group preserves a task's
scheduling bound over the phrases of its group. -/
theorem taskIdx_append (ps : List Phrase) (newP : Phrase) (tg : Nat)
    (hne : newP.questionGroupId ≠ some tg) (sched : Nat)
    (hold : ∀ (i : Nat) (p : Phrase), ps[i]? = some p →
      p.questionGroupId = some tg → i ≤ sched) :
    ∀ (i : Nat) (p : Phrase), (ps ++ [newP])[i]? = some p →
      p.questionGroupId = some tg → i ≤ sched := by
  intro i p h hg
  rcases getElem?_append_singleton ps newP i p h with h1 | ⟨hi, hpq⟩
  · exact hold i p h1 hg
  · rw [hpq] at hg
    exact absurd hg hne

/-- Every index of a list extended to length `k + 1` is at most `k`. -/
theorem idx_le_of_append_singleton {α : Type} (ps : List α) (q : α) (k : Nat)
    (hlen : ps.length = k) (i : Nat) (p : α)
    (h : (ps ++ [q])[i]? = some p) : i ≤ k := by
  rw [List.getElem?_eq_some] at h
  obtain ⟨hlt, -⟩ := h
  simp only [List.length_append, List.length_cons, List.length_nil, hlen] at hlt
  omega

/-- One aggregator step preserves the sync-run invariant. -/
theorem AggInv_step (st : AggState) (tasks : List PendingTask) (k : Nat)
    (text : String) (isFinal : Bool) (hinv : AggInv st tasks k) :
    AggInv (onTranscriptionUpdate st text isFinal k).1
      (tasks ++ (onTranscriptionUpdate st text isFinal k).2.toList) (k + 1) := by
  obtain ⟨hlen, hpid, hph, htask, hcur⟩ := hinv
  cases hc : st.currentQuestionGroup with
  | none =>
    by_cases hp : hasPunctuation text = true
    · have hstep1 : (onTranscriptionUpdate st text isFinal k).1 =
          { phrases := st.phrases ++
              [{ id := st.phraseIdCounter, text := text, isFinal := isFinal,
                 isQuestion := false,
                 questionGroupId := some st.questionGroupCounter,
                 searchResults := none }],
            phraseIdCounter := st.phraseIdCounter + 1,
            currentQuestionGroup := none,
            questionGroupCounter := st.questionGroupCounter + 1,
            accumulatedText := "" } := by
        simp [onTranscriptionUpdate, hc, hp]
      have hstep2 : (onTranscriptionUpdate st text isFinal k).2.toList =
          [⟨st.questionGroupCounter, st.accumulatedText ++ text, k⟩] := by
        simp [onTranscriptionUpdate, hc, hp]
      rw [hstep1, hstep2]
      unfold AggInv
      refine ⟨by simp [hlen], by simp [hpid], ?_, ?_, ?_⟩
      · exact phraseInv_append st.phrases k hlen st.questionGroupCounter
          (st.questionGroupCounter + 1) (Nat.le_succ _) hph _ hpid
          st.questionGroupCounter rfl (Nat.lt_succ_self _)
      · intro t ht
        rcases List.mem_append.mp ht with ht1 | ht2
        · obtain ⟨h1, h2, h3⟩ := htask t ht1
          refine ⟨Nat.lt_succ_of_lt h1, Nat.lt_succ_of_lt h2, ?_⟩
          refine taskIdx_append st.phrases _ t.groupId ?_ t.schedIdx h3
          intro he
          simp only [Option.some.injEq] at he
          omega
        · have ht2' : t = ⟨st.questionGroupCounter, st.accumulatedText ++ text, k⟩ := by
            simpa using ht2
          subst ht2'
          refine ⟨Nat.lt_succ_self _, Nat.lt_succ_self _, ?_⟩
          intro i p h hg
          exact idx_le_of_append_singleton st.phrases _ k hlen i p h
      · intro g hg
        exact absurd hg (by simp)
    · have hstep1 : (onTranscriptionUpdate st text isFinal k).1 =
          { phrases := st.phrases ++
              [{ id := st.phraseIdCounter, text := text, isFinal := isFinal,
                 isQuestion := false,
                 questionGroupId := some st.questionGroupCounter,
                 searchResults := none }],
            phraseIdCounter := st.phraseIdCounter + 1,
            currentQuestionGroup := some st.questionGroupCounter,
            questionGroupCounter := st.questionGroupCounter + 1,
            accumulatedText := st.accumulatedText ++ text } := by
        simp [onTranscriptionUpdate, hc, hp]
      have hstep2 : (onTranscriptionUpdate st text isFinal k).2.toList = [] := by
        simp [onTranscriptionUpdate, hc, hp]
      rw [hstep1, hstep2, List.append_nil]
      unfold AggInv
      refine ⟨by simp [hlen], by simp [hpid], ?_, ?_, ?_⟩
      · exact phraseInv_append st.phrases k hlen st.questionGroupCounter
          (st.questionGroupCounter + 1) (Nat.le_succ _) hph _ hpid
          st.questionGroupCounter rfl (Nat.lt_succ_self _)
      · intro t ht
        obtain ⟨h1, h2, h3⟩ := htask t ht
        refine ⟨Nat.lt_succ_of_lt h1, Nat.lt_succ_of_lt h2, ?_⟩
        refine taskIdx_append st.phrases _ t.groupId ?_ t.schedIdx h3
        intro he
        simp only [Option.some.injEq] at he
        omega
      · intro g hg
        have hg' : g = st.questionGroupCounter := by
          simpa using hg.symm
        subst hg'
        refine ⟨Nat.lt_succ_self _, ?_⟩
        intro t ht
        exact ne_of_lt (htask t ht).1
  | some g0 =>
    obtain ⟨hg0lt, hg0no⟩ := hcur g0 hc
    by_cases hp : hasPunctuation text = true
    · have hstep1 : (onTranscriptionUpdate st text isFinal k).1 =
          { phrases := st.phrases ++
              [{ id := st.phraseIdCounter, text := text, isFinal := isFinal,
                 isQuestion := false, questionGroupId := some g0,
                 searchResults := none }],
            phraseIdCounter := st.phraseIdCounter + 1,
            currentQuestionGroup := none,
            questionGroupCounter := st.questionGroupCounter,
            accumulatedText := "" } := by
        simp [onTranscriptionUpdate, hc, hp]
      have hstep2 : (onTranscriptionUpdate st text isFinal k).2.toList =
          [⟨g0, st.accumulatedText ++ text, k⟩] := by
        simp [onTranscriptionUpdate, hc, hp]
      rw [hstep1, hstep2]
      unfold AggInv
      refine ⟨by simp [hlen], by simp [hpid], ?_, ?_, ?_⟩
      · exact phraseInv_append st.phrases k hlen st.questionGroupCounter
          st.questionGroupCounter (le_refl _) hph _ hpid g0 rfl hg0lt
      · intro t ht
        rcases List.mem_append.mp ht with ht1 | ht2
        · obtain ⟨h1, h2, h3⟩ := htask t ht1
          refine ⟨h1, Nat.lt_succ_of_lt h2, ?_⟩
          refine taskIdx_append st.phrases _ t.groupId ?_ t.schedIdx h3
          intro he
          simp only [Option.some.injEq] at he
          exact hg0no t ht1 he.symm
        · have ht2' : t = ⟨g0, st.accumulatedText ++ text, k⟩ := by
            simpa using ht2
          subst ht2'
          refine ⟨hg0lt, Nat.lt_succ_self _, ?_⟩
          intro i p h hg
          exact idx_le_of_append_singleton st.phrases _ k hlen i p h
      · intro g hg
        exact absurd hg (by simp)
    · have hstep1 : (onTranscriptionUpdate st text isFinal k).1 =
          { phrases := st.phrases ++
              [{ id := st.phraseIdCounter, text := text, isFinal := isFinal,
                 isQuestion := false, questionGroupId := some g0,
                 searchResults := none }],
            phraseIdCounter := st.phraseIdCounter + 1,
            currentQuestionGroup := some g0,
            questionGroupCounter := st.questionGroupCounter,
            accumulatedText := st.accumulatedText ++ text } := by
        simp [onTranscriptionUpdate, hc, hp]
      have hstep2 : (onTranscriptionUpdate st text isFinal k).2.toList = [] := by
        simp [onTranscriptionUpdate, hc, hp]
      rw [hstep1, hstep2, List.append_nil]
      unfold AggInv
      refine ⟨by simp [hlen], by simp [hpid], ?_, ?_, ?_⟩
      · exact phraseInv_append st.phrases k hlen st.questionGroupCounter
          st.questionGroupCounter (le_refl _) hph _ hpid g0 rfl hg0lt
      · intro t ht
        obtain ⟨h1, h2, h3⟩ := htask t ht
        refine ⟨h1, Nat.lt_succ_of_lt h2, ?_⟩
        refine taskIdx_append st.phrases _ t.groupId ?_ t.schedIdx h3
        intro he
        simp only [Option.some.injEq] at he
        exact hg0no t ht he.symm
      · intro g hg
        have hg' : g = g0 := by
          simpa using hg.symm
        subst hg'
        exact ⟨hg0lt, hg0no⟩

/-- The sync-run invariant holds along any run from the Idle state. -/
theorem AggInv_runSyncAux (inputs : List (String × Bool)) :
    ∀ st tasks k, AggInv st tasks k →
      AggInv (runSyncAux st tasks k inputs).1 (runSyncAux st tasks k inputs).2
        (k + inputs.length) := by
  induction inputs with
  | nil =>
    intro st tasks k h
    simpa [runSyncAux] using h
  | cons a rest ih =>
    intro st tasks k h
    obtain ⟨t, f⟩ := a
    simp only [runSyncAux, List.length_cons]
    have h' := AggInv_step st tasks k t f h
    have h2 := ih _ _ _ h'
    have harith : k + 1 + rest.length = k + (rest.length + 1) := by omega
    rwa [harith] at h2

/-- The sync-run invariant at the end of a full run. -/
theorem runSync_inv (inputs : List (String × Bool)) :
    AggInv (runSync inputs).1 (runSync inputs).2 inputs.length := by
  have h0 : AggInv initialAggState [] 0 := by
    unfold AggInv
    refine ⟨rfl, rfl, ?_, ?_, ?_⟩ <;> simp [initialAggState]
  simpa using AggInv_runSyncAux inputs initialAggState [] 0 h0

/-! ## Claims -/

/-- C1: the fragments "Tell ", "me about ", "your experience." delivered
in order from the Idle state append exactly three phrases, all sharing
question group 0; no classification is scheduled by the first two
fragments; the third (the first with sentence-ending punctuation)
schedules exactly one classification call on the concatenation
"Tell me about your experience."; afterwards the accumulation buffer is
empty and the group closed, and completing the classification task
— whatever its outcome — leaves the buffer and the open-group state
untouched. -/
theorem C1_grouping_pipeline :
    (runSync c1Inputs).1.phrases.map (fun p => p.text) =
        ["Tell ", "me about ", "your experience."] ∧
    (runSync c1Inputs).1.phrases.map (fun p => p.questionGroupId) =
        [some 0, some 0, some 0] ∧
    (runSync (c1Inputs.take 2)).2 = [] ∧
    (runSync c1Inputs).2 =
        [{ groupId := 0, fullText := "Tell me about your experience.", schedIdx := 2 }] ∧
    (runSync c1Inputs).1.accumulatedText = "" ∧
    (runSync c1Inputs).1.currentQuestionGroup = none ∧
    ∀ g isQ results st,
      (completeTask g isQ results st).accumulatedText = st.accumulatedText ∧
      (completeTask g isQ results st).currentQuestionGroup = st.currentQuestionGroup := by
  refine ⟨by decide, by decide, by decide, by decide, by decide, by decide, ?_⟩
  intro g isQ results st
  cases isQ <;> simp [completeTask]

/-- C2: keyword-mode detection returns true iff the text contains a
question mark or its lower-cased form contains one of the fixed
interview trigger phrases as a substring; it is a total (deterministic,
failure-free) boolean function, so for every other string it returns
false. -/
theorem C2_keyword_detection (text : String) :
    detectWithKeywords text = true ↔
      '?' ∈ text.toList ∨
        ∃ kw ∈ interviewKeywords, kw.toList <:+: text.toList.map toLowerChar := by
  have hkwb : ∀ kw ∈ interviewKeywords,
      ((kw.toList.head?.all fun c => !c.isWhitespace) = true ∧
       ((kw.toList.reverse.head?.all fun c => !c.isWhitespace) = true)) := by decide
  have hdet : detectWithKeywords text =
      (decide ('?' ∈ trimList (text.toList.map toLowerChar)) ||
        interviewKeywords.any fun kw =>
          decide (kw.toList <:+: trimList (text.toList.map toLowerChar))) := by
    cases h1 : decide ('?' ∈ trimList (text.toList.map toLowerChar)) <;>
      cases h2 : interviewKeywords.any fun kw =>
          decide (kw.toList <:+: trimList (text.toList.map toLowerChar)) <;>
      simp_all [detectWithKeywords]
  rw [hdet, Bool.or_eq_true, decide_eq_true_eq, List.any_eq_true]
  constructor
  · rintro (h | ⟨kw, hkw, hdec⟩)
    · left
      have h2 := (mem_trimList_iff '?' _ (by decide)).mp h
      exact (qmark_mem_map_toLower text.toList).mp h2
    · right
      refine ⟨kw, hkw, ?_⟩
      have hc := hkwb kw hkw
      exact (infix_trimList_iff kw.toList _ (headCond_of_all hc.1)
        (headCond_of_all hc.2)).mp (of_decide_eq_true hdec)
  · rintro (h | ⟨kw, hkw, hinf⟩)
    · left
      have h2 := (qmark_mem_map_toLower text.toList).mpr h
      exact (mem_trimList_iff '?' _ (by decide)).mpr h2
    · right
      refine ⟨kw, hkw, ?_⟩
      have hc := hkwb kw hkw
      exact decide_eq_true ((infix_trimList_iff kw.toList _ (headCond_of_all hc.1)
        (headCond_of_all hc.2)).mpr hinf)

/-- C3: the LLM cache is a FIFO-capped map: (1) after feeding more
than 100 pairwise-distinct texts, the cache keys are exactly the last
100 texts in insertion order, and in particular the oldest
(first-inserted) text is no longer present; (2) an insertion into a
full cache of 100 entries evicts exactly one entry — the oldest (the
head of the insertion order) — leaving the size at 100; (3) an
insertion into a cache below the bound evicts nothing; (4) a cache hit
leaves the cache — hence every entry's eviction position — completely
unchanged (FIFO, not LRU); (5) the cache never holds more than 100
entries after any classification call completes. -/
theorem C3_cache_fifo_bound :
    (∀ (ans : String → Bool) (ts : List String), ts.Nodup → 100 < ts.length →
      cacheKeys (runCache ans ts) = ts.drop (ts.length - 100) ∧
      ∀ t0, ts.head? = some t0 → t0 ∉ cacheKeys (runCache ans ts)) ∧
    (∀ (net : String → Option Bool) (c : Cache) (t : String) (b : Bool),
      cacheLookup c t = none → net t = some b → c.length = 100 →
      (detectWithLLM net c t).2.1 = c.tail ++ [(t, b)] ∧
      (detectWithLLM net c t).2.1.length = 100) ∧
    (∀ (net : String → Option Bool) (c : Cache) (t : String) (b : Bool),
      cacheLookup c t = none → net t = some b → c.length < 100 →
      (detectWithLLM net c t).2.1 = c ++ [(t, b)]) ∧
    (∀ (net : String → Option Bool) (c : Cache) (t : String) (b : Bool),
      cacheLookup c t = some b → detectWithLLM net c t = (b, c, 0)) ∧
    (∀ (net : String → Option Bool) (c : Cache) (t : String),
      c.length ≤ 100 → (detectWithLLM net c t).2.1.length ≤ 100) := by
  refine ⟨?_, ?_, ?_, ?_, ?_⟩
  · intro ans ts hnd hlen
    have hk : cacheKeys (runCache ans ts) = ts.drop (ts.length - 100) := by
      rw [runCache_eq ans ts hnd]
      exact cacheKeys_drop_pair ans ts _
    refine ⟨hk, ?_⟩
    intro t0 h0 hmem
    rw [hk] at hmem
    cases ts with
    | nil => simp at h0
    | cons x rest =>
      have hx : x = t0 := by simpa using h0
      rw [← hx] at hmem
      have harith : (x :: rest).length - 100 = (rest.length - 100) + 1 := by
        simp only [List.length_cons] at hlen ⊢
        omega
      rw [harith, List.drop_succ_cons] at hmem
      exact (List.nodup_cons.mp hnd).1 (List.mem_of_mem_drop hmem)
  · intro net c t b hmiss hnet hlen100
    rw [detectWithLLM_miss net c t b hmiss hnet]
    have hgt : 100 < (c ++ [(t, b)]).length := by
      simp [hlen100]
    simp only [hgt, if_true]
    cases c with
    | nil => simp at hlen100
    | cons e rest =>
      rw [List.cons_append, cacheDeleteFirstKey_cons]
      refine ⟨rfl, ?_⟩
      simp only [List.length_cons] at hlen100
      simp only [List.length_append, List.length_cons, List.length_nil]
      omega
  · intro net c t b hmiss hnet hlt
    rw [detectWithLLM_miss net c t b hmiss hnet]
    have hle : ¬ 100 < (c ++ [(t, b)]).length := by
      simp only [List.length_append, List.length_cons, List.length_nil]
      omega
    simp only [hle, if_false]
  · intro net c t b hhit
    simp [detectWithLLM, hhit]
  · intro net c t hle
    cases hl : cacheLookup c t with
    | some b => simpa [detectWithLLM, hl] using hle
    | none =>
      cases hn : net t with
      | none => simpa [detectWithLLM, hl, hn] using hle
      | some b =>
        rw [detectWithLLM_miss net c t b hl hn]
        by_cases hg : 100 < (c ++ [(t, b)]).length
        · simp only [hg, if_true]
          cases c with
          | nil => simp at hg
          | cons e rest =>
            rw [List.cons_append, cacheDeleteFirstKey_cons]
            simp only [List.length_cons] at hle
            simp only [List.length_append, List.length_cons, List.length_nil]
            omega
        · simp only [hg, if_false]
          simp only [List.length_append, List.length_cons, List.length_nil] at hg ⊢
          omega

/-- Witness for C3: after feeding the 101 distinct texts "0", …, "100"
(all classified successfully), the first-inserted text "0" has been
evicted. -/
theorem C3_cache_fifo_bound_witness :
    "0" ∉ cacheKeys (runCache (fun _ => true) cacheStressTexts) :=
  (C3_cache_fifo_bound.1 (fun _ => true) cacheStressTexts (by decide)
    (by decide)).2 "0" (by decide)

/-- C4: calling the LLM classifier twice in sequence with the same
exact text (first classification succeeding, so the entry is cached and
— as proven — cannot be evicted by its own insertion) returns the same
boolean both times; the second call is answered from the cache and
issues no classifier request, and the first issues at most one. -/
theorem C4_cache_idempotence (net1 net2 : String → Option Bool) (c : Cache)
    (t : String) (b : Bool) (h : net1 t = some b) :
    (detectWithLLM net2 (detectWithLLM net1 c t).2.1 t).1 =
        (detectWithLLM net1 c t).1 ∧
    (detectWithLLM net2 (detectWithLLM net1 c t).2.1 t).2.2 = 0 ∧
    (detectWithLLM net1 c t).2.2 ≤ 1 := by
  have hl := cacheLookup_after_insert net1 c t b h
  have hsecond : detectWithLLM net2 (detectWithLLM net1 c t).2.1 t =
      ((detectWithLLM net1 c t).1, (detectWithLLM net1 c t).2.1, 0) := by
    rcases hres : detectWithLLM net1 c t with ⟨b1, c1, k1⟩
    rw [hres] at hl
    simp only at hl
    simp [detectWithLLM, hl]
  rw [hsecond]
  exact ⟨rfl, rfl, detectWithLLM_calls_le_one net1 c t⟩

/-- Witness for C4 at a concrete input. -/
theorem C4_cache_idempotence_witness :
    (detectWithLLM (fun _ => some false)
        (detectWithLLM (fun _ => some true) [] "q").2.1 "q").1 =
      (detectWithLLM (fun _ => some true) [] "q").1 ∧
    (detectWithLLM (fun _ => some false)
        (detectWithLLM (fun _ => some true) [] "q").2.1 "q").2.2 = 0 ∧
    (detectWithLLM (fun _ => some true) [] "q").2.2 ≤ 1 :=
  C4_cache_idempotence (fun _ => some true) (fun _ => some false) [] "q" true rfl

/-- C5: when the text is not cached and the classifier request fails,
`detectWithLLM` returns the keyword-mode result on the same text, the
cache is unchanged (the failure is not cached), and no error is
propagated (the call returns normally). -/
theorem C5_classifier_fallback (net : String → Option Bool) (c : Cache)
    (t : String) (hmiss : cacheLookup c t = none) (hfail : net t = none) :
    detectWithLLM net c t = (detectWithKeywords t, c, 1) := by
  simp [detectWithLLM, hmiss, hfail]

/-- Witness for C5 at a concrete input. -/
theorem C5_classifier_fallback_witness :
    detectWithLLM (fun _ => none) [] "hello" = (detectWithKeywords "hello", [], 1) :=
  C5_classifier_fallback (fun _ => none) [] "hello" rfl rfl

/-- C6: the aggregator's filter retains exactly the results whose score
meets the caller-supplied threshold, preserving their order (it is a
sublist of the input); on scores [0.9, 0.6, 0.3] with threshold 0.5 it
retains exactly the results scored [0.9, 0.6]. -/
theorem C6_threshold_filter :
    (∀ (thr : ℚ) (rs : List MemorySearchResult),
        List.Sublist (filterByThreshold thr rs) rs ∧
        ∀ r, r ∈ filterByThreshold thr rs ↔ r ∈ rs ∧ thr ≤ r.score) ∧
    filterByThreshold (1/2) c6Results = c6Kept := by
  constructor
  · intro thr rs
    refine ⟨List.filter_sublist rs, ?_⟩
    intro r
    simp [filterByThreshold, List.mem_filter]
  · norm_num [filterByThreshold, List.filter_cons, List.filter_nil, c6Results, c6Kept]

/-- C7: a save-memory request in which a required field (the memory
object, its classification, its description, or sourceFile) is absent
is rejected with status 400 and success false, with no embedding
request issued and nothing inserted into the datastore. -/
theorem C7_ingestion_validation (embed : String → Option (List ℚ))
    (req : SaveRequest) (h : requiredFieldAbsent req = true) :
    saveMemoryHandler embed req =
      { status := 400, success := false, embedRequests := [], insertedDocs := [] } := by
  unfold saveMemoryHandler
  cases hm : req.memory with
  | none => rfl
  | some m =>
    unfold requiredFieldAbsent at h
    rw [hm] at h
    simp only [Bool.or_eq_true] at h
    have hcond : (strFalsy m.classification || strFalsy m.description ||
        strFalsy req.sourceFile) = true := by
      rcases h with (h | h) | h
      · simp [strFalsy_of_isNone h]
      · simp [strFalsy_of_isNone h]
      · simp [strFalsy_of_isNone h]
    simp [hcond]

/-- Witness for C7: a request missing `description` is rejected before
any embedding request is made. -/
theorem C7_ingestion_validation_witness :
    saveMemoryHandler (fun _ => some []) c7MissingDescription =
      { status := 400, success := false, embedRequests := [], insertedDocs := [] } :=
  C7_ingestion_validation (fun _ => some []) c7MissingDescription (by decide)

/-- An element of the annotation part of a round comes from a pending
task passing the round's completion filter. -/
theorem annots_getElem_eq_annotate (tasks : List PendingTask)
    (pred : PendingTask → Bool) (m : Nat) (e : TraceEvent)
    (h : ((tasks.filter pred).map fun t => TraceEvent.annotate t.groupId)[m]? =
      some e) :
    ∃ t, t ∈ tasks ∧ pred t = true ∧ e = TraceEvent.annotate t.groupId := by
  rw [List.getElem?_map] at h
  cases hf : (tasks.filter pred)[m]? with
  | none =>
    rw [hf] at h
    exact absurd h (by simp)
  | some t =>
    rw [hf] at h
    simp only [Option.map_some', Option.some.injEq] at h
    have hmem := List.getElem?_mem hf
    rw [List.mem_filter] at hmem
    exact ⟨t, hmem.1, hmem.2, h.symm⟩

/-- C8: in the round-structured trace (rounds flattened in order give
the temporal order of events, displays emitted synchronously at the
head of their round), for every valid completion schedule the display
emission of a fragment strictly precedes every annotation update of its
group; and the concrete four-fragment run shows an annotation landing
after a subsequent fragment of a newer group has already been
displayed. -/
theorem C8_display_precedes_annot :
    (∀ (inputs : List (String × Bool)) (d : Nat → Nat),
      (∀ t ∈ (runSync inputs).2, t.schedIdx ≤ d t.schedIdx) →
      ∀ (j1 j2 : Nat) (r1 r2 : List TraceEvent) (i1 i2 pid g : Nat),
        (traceRounds inputs d)[j1]? = some r1 →
        (traceRounds inputs d)[j2]? = some r2 →
        r1[i1]? = some (TraceEvent.display pid (some g)) →
        r2[i2]? = some (TraceEvent.annotate g) →
        j1 < j2 ∨ (j1 = j2 ∧ i1 < i2)) ∧
    traceRounds c8DemoInputs c8DemoSched =
      [[TraceEvent.display 0 (some 0)], [TraceEvent.display 1 (some 0)],
       [TraceEvent.display 2 (some 0)],
       [TraceEvent.display 3 (some 1), TraceEvent.annotate 0]] := by
  constructor
  · intro inputs d hval j1 j2 r1 r2 i1 i2 pid g hj1 hj2 hi1 hi2
    obtain ⟨hlenI, hpidI, hph, htask, hcur⟩ := runSync_inv inputs
    simp only [traceRounds] at hj1 hj2
    rw [List.getElem?_map, List.getElem?_enum] at hj1 hj2
    cases hp1 : (runSync inputs).1.phrases[j1]? with
    | none =>
      rw [hp1] at hj1
      exact absurd hj1 (by simp)
    | some p1 =>
    cases hp2 : (runSync inputs).1.phrases[j2]? with
    | none =>
      rw [hp2] at hj2
      exact absurd hj2 (by simp)
    | some p2 =>
    rw [hp1] at hj1
    rw [hp2] at hj2
    simp only [Option.map_some', Option.some.injEq] at hj1 hj2
    subst hj1
    subst hj2
    cases i1 with
    | succ m1 =>
      rw [List.getElem?_cons_succ] at hi1
      obtain ⟨t1, -, -, habs⟩ := annots_getElem_eq_annotate _ _ m1 _ hi1
      exact absurd habs (by simp)
    | zero =>
      simp only [List.getElem?_cons_zero, Option.some.injEq,
        TraceEvent.display.injEq] at hi1
      obtain ⟨-, hgid⟩ := hi1
      cases i2 with
      | zero =>
        simp only [List.getElem?_cons_zero, Option.some.injEq] at hi2
        exact absurd hi2 (by simp)
      | succ m2 =>
        rw [List.getElem?_cons_succ] at hi2
        obtain ⟨t2, ht2mem, ht2pred, ht2eq⟩ :=
          annots_getElem_eq_annotate _ _ m2 _ hi2
        have hgeq : t2.groupId = g := by
          simp only [TraceEvent.annotate.injEq] at ht2eq
          exact ht2eq.symm
        have hd : d t2.schedIdx = j2 := by simpa using ht2pred
        have hj1le : j1 ≤ t2.schedIdx :=
          (htask t2 ht2mem).2.2 j1 p1 hp1 (by rw [hgid, hgeq])
        have hsched : t2.schedIdx ≤ d t2.schedIdx := hval t2 ht2mem
        rcases Nat.lt_or_ge j1 j2 with h | h
        · exact Or.inl h
        · right
          refine ⟨by omega, by omega⟩
  · decide

/-- Witness for C8, applying the ordering theorem to the concrete
four-fragment run: the display of fragment 2 (round 2, slot 0) precedes
the annotation of its group (round 3, slot 1). -/
theorem C8_display_precedes_annot_witness :
    2 < 3 ∨ (2 = 3 ∧ 0 < 1) :=
  C8_display_precedes_annot.1 c8DemoInputs c8DemoSched (by decide) 2 3
    [TraceEvent.display 2 (some 0)]
    [TraceEvent.display 3 (some 1), TraceEvent.annotate 0]
    0 1 2 0 (by decide) (by decide) (by decide) (by decide)

/-- C9: every fragment is assigned exactly one question group id at
creation (the appended phrase carries `some g`), and the annotation
update touches only the `isQuestion` and `searchResults` fields of
exactly the phrases of the annotated group — uniformly setting
`isQuestion` to true and attaching the same result list — while the
`id`, `text`, `isFinal` and `questionGroupId` fields of every phrase,
and all phrases of other groups, are unchanged (and no phrase is added
or removed). -/
theorem C9_annot_frame :
    (∀ st text isFinal idx, ∃ g,
        ((onTranscriptionUpdate st text isFinal idx).1).phrases =
          st.phrases ++
            [{ id := st.phraseIdCounter, text := text, isFinal := isFinal,
               isQuestion := false, questionGroupId := some g,
               searchResults := none }]) ∧
    (∀ g results ps, (applyAnnot g results ps).length = ps.length) ∧
    (∀ (g : Nat) (results : List MemorySearchResult) (ps : List Phrase)
        (i : Nat) (p : Phrase), ps[i]? = some p →
      ∃ q, (applyAnnot g results ps)[i]? = some q ∧
        q.id = p.id ∧ q.text = p.text ∧ q.isFinal = p.isFinal ∧
        q.questionGroupId = p.questionGroupId ∧
        (p.questionGroupId = some g →
            q.isQuestion = true ∧ q.searchResults = some results) ∧
        (p.questionGroupId ≠ some g → q = p)) := by
  refine ⟨?_, ?_, ?_⟩
  · intro st text isFinal idx
    cases hc : st.currentQuestionGroup with
    | none =>
      refine ⟨st.questionGroupCounter, ?_⟩
      unfold onTranscriptionUpdate
      rw [hc]
      by_cases hp : hasPunctuation text = true <;> simp [hp]
    | some g =>
      refine ⟨g, ?_⟩
      unfold onTranscriptionUpdate
      rw [hc]
      by_cases hp : hasPunctuation text = true <;> simp [hp]
  · intro g results ps
    simp [applyAnnot]
  · intro g results ps i p hp
    refine ⟨if p.questionGroupId = some g then
        { p with isQuestion := true, searchResults := some results } else p, ?_, ?_⟩
    · rw [applyAnnot, List.getElem?_map, hp]
      rfl
    · by_cases hgrp : p.questionGroupId = some g <;> simp [hgrp]

/-- Witness for C9 at a concrete input. -/
theorem C9_annot_frame_witness :
    ∃ q, (applyAnnot 0 []
        [{ id := 0, text := "Hi.", isFinal := true, isQuestion := false,
           questionGroupId := some 0, searchResults := none }])[0]? = some q ∧
      q.id = 0 ∧ q.text = "Hi." ∧ q.isFinal = true ∧
      q.questionGroupId = some 0 ∧
      ((some 0 : Option Nat) = some 0 →
          q.isQuestion = true ∧ q.searchResults = some []) ∧
      ((some 0 : Option Nat) ≠ some 0 →
          q = { id := 0, text := "Hi.", isFinal := true, isQuestion := false,
                questionGroupId := some 0, searchResults := none }) :=
  C9_annot_frame.2.2 0 []
    [{ id := 0, text := "Hi.", isFinal := true, isQuestion := false,
       questionGroupId := some 0, searchResults := none }] 0
    { id := 0, text := "Hi.", isFinal := true, isQuestion := false,
      questionGroupId := some 0, searchResults := none } rfl

/-- C10: when the caller supplies no limit, the frontend client
defaults to 3 results, the HTTP search endpoint defaults a missing body
limit to 5, and the tool-protocol search tool always requests exactly 5
results and exposes no limit parameter. -/
theorem C10_search_limits :
    searchMemoriesClientLimit none = 3 ∧ searchMemoryEndpointLimit none = 5 ∧
    mcpSearchMemoriesLimit = 5 ∧ mcpSearchMemoriesInputProperties = ["query"] :=
  ⟨rfl, rfl, rfl, rfl⟩

end OnCue
